import Mathlib

/-!
Shallow embedding of the enclave-tools-rust merge/deduplicate core
(src/csv/merge.rs and src/csv/deduplicate.rs), with theorems checking the
natural-language specification against the code.

Modelling conventions:
* a byte field is a `List Nat`; a row (ByteRecord) is a `List Field`;
* the CSV writer is modelled by returning the list of rows written;
* Rust `Option` becomes `Option`, fallible iterator items become `Except`;
* panics (via expect/unwrap) on out-of-range indices are modelled with
  `List.getD` defaults; no claim below depends on a panicking execution.
-/

namespace EnclaveTools

/-- A byte field of a delimited record (a raw byte slice in the source). -/
abbrev Field := List Nat

/-- A record: an ordered sequence of byte fields (csv::ByteRecord). -/
abbrev Row := List Field

/-- Provenance tag attached to every row entering the dedup layer
(enum Side in src/csv/deduplicate.rs). -/
inductive Side where
  | Left
  | Right
deriving DecidableEq, Repr

/-- Merge strategies (enum MergeStrategy in src/lib.rs). -/
inductive MergeStrategy where
  | Or
  | And
  | AndNot
deriving DecidableEq, Repr

/-- Lexicographic comparison of byte slices, as Rust slice cmp on
the key bytes (byte mode of Merger::compare in src/csv/merge.rs). -/
def compareBytes : Field → Field → Ordering
  | [], [] => Ordering.eq
  | [], _ :: _ => Ordering.lt
  | _ :: _, [] => Ordering.gt
  | a :: as, b :: bs =>
    if a < b then Ordering.lt
    else if b < a then Ordering.gt
    else compareBytes as bs

/-- Rust Ordering::is_le (cmp is Less or Equal). -/
def ordIsLe (o : Ordering) : Bool :=
  match o with
  | Ordering.gt => false
  | _ => true

/-- Rust Ordering::is_ge (cmp is Greater or Equal). -/
def ordIsGe (o : Ordering) : Bool :=
  match o with
  | Ordering.lt => false
  | _ => true

/-- Rust Ordering::is_eq. -/
def ordIsEq (o : Ordering) : Bool :=
  match o with
  | Ordering.eq => true
  | _ => false

/-- Rust Ordering::is_ne. -/
def ordIsNe (o : Ordering) : Bool := !(ordIsEq o)

/-!  Header mapper (Merger::get_headers, Merger::format_header,
Merger::get_output_headers, Merger::map_file_headers_to_output). -/

/-- Merger::format_header: apply the optional output_header_callback to a
header name; None means the callback dropped the column. -/
def formatHeader (cb : Option (String → Option String)) (h : String) :
    Option String :=
  match cb with
  | some f => f h
  | none => some h

/-- Merger::get_headers: map each original header through the callback and
record the index of the key column.  The source sets key_index at every
position whose ORIGINAL name equals the key, so the last match wins. -/
def getHeaders (headers : List String) (key : String)
    (cb : Option (String → Option String)) :
    List (Option String) × Option Nat :=
  let keyIndex := headers.enum.foldl
    (fun acc p => if p.2 = key then some p.1 else acc) none
  (headers.map (formatHeader cb), keyIndex)

/-- Filtering with a grow-only seen-set, as the HashSet-insert filter in
Merger::get_output_headers. -/
def dedupInsertFilter (seen : List String) : List String → List String
  | [] => []
  | x :: xs =>
    if x ∈ seen then dedupInsertFilter seen xs
    else x :: dedupInsertFilter (x :: seen) xs

/-- Merger::get_output_headers: concatenate the retained left headers with
the retained right headers and keep only first occurrences. -/
def getOutputHeaders (leftHeaders rightHeaders : List (Option String)) :
    List String :=
  dedupInsertFilter [] (leftHeaders.filterMap id ++ rightHeaders.filterMap id)

/-- Merger::get_header_pos: position of a name in a side's formatted header
list, with dropped columns read as the empty name. -/
def getHeaderPos (headers : List (Option String)) (name : String) :
    Option Nat :=
  headers.findIdx? (fun col => col.getD "" = name)

/-- Merger::map_file_headers_to_output: for every output column, the source
column it comes from (or none). -/
def mapFileHeadersToOutput (outputHeaders : List String)
    (fileHeaders : List (Option String)) : List (Option Nat) :=
  outputHeaders.map (fun h => getHeaderPos fileHeaders h)

/-- Position of a name in the union header list (resolution against H, the
reading of the key-resolution sentence under test in claim C4). -/
def unionHeaderPos (outputHeaders : List String) (name : String) :
    Option Nat :=
  outputHeaders.findIdx? (fun h => h = name)

/-- Abstraction of the fatal key_index.expect in Merger::handle: a missing
key column aborts the run. -/
def resolveKeyIndex (idx : Option Nat) : Except String Nat :=
  match idx with
  | some i => Except.ok i
  | none => Except.error "missing key column"

/-!  Record-IO: Merger::read_record. -/

/-- Merger::read_record on the head of the remaining iterator items.  An
item is Except.ok row for a parsed record and Except.error e for a row the
record-IO layer rejected.  The source matches `if let Some(Ok(record))`,
so an error item falls through to the end-of-input result. -/
def readRecord {E : Type} (iter : List (Except E Row))
    (mapping : List (Option Nat)) (keyIndex : Option Nat) :
    Option (Row × Option Field) :=
  match iter with
  | Except.ok record :: _ =>
    let values := mapping.map
      (fun m => match m with
        | some j => record.getD j []
        | none => ([] : Field))
    match keyIndex with
    | some k => some (values, some (record.getD k []))
    | none => some (values, none)
  | _ => none

/-!  Merge-join driver (main loop of Merger::handle, lines 130-192). -/

/-- A cursor head as produced by read_record inside the main loop: the
projected record together with its extracted key bytes. -/
abbrev Head := Row × Field

/-- Mutable loop state of Merger::handle across iterations: the two
freshness flags and the one-step left history. -/
structure LoopState where
  leftReaded : Bool
  rightReaded : Bool
  oldLeftValue : Option Field
deriving DecidableEq, Repr

/-- One iteration of the main merge loop of Merger::handle with both heads
present: computes cmp, old_left_eq_right and need_read_left, pushes the
left and/or right head into the dedup layer according to the strategy, and
advances one cursor.  Returns the pushed (row, key, side) emissions in push
order, whether the left cursor was advanced, and the next loop state.  The
comparator argument stands for Merger::compare under the active
configuration. -/
def mergeStep (strat : MergeStrategy) (compare : Field → Field → Ordering)
    (st : LoopState) (l r : Head) :
    List (Head × Side) × Bool × LoopState :=
  let cmp := compare l.2 r.2
  let oldLeftEqRight :=
    match st.oldLeftValue with
    | some v => decide (v = r.2)
    | none => false
  let needReadLeft := oldLeftEqRight && ordIsNe cmp
  let needLeftPush :=
    match strat with
    | MergeStrategy.And => st.leftReaded && ordIsEq cmp
    | MergeStrategy.Or => st.leftReaded && ordIsLe cmp && !needReadLeft
    | MergeStrategy.AndNot =>
      st.leftReaded && decide (cmp = Ordering.lt) && !needReadLeft
  let needRightPush :=
    match strat with
    | MergeStrategy.And => st.rightReaded && (ordIsEq cmp || oldLeftEqRight)
    | MergeStrategy.Or => st.rightReaded && ordIsGe cmp
    | MergeStrategy.AndNot => false
  let emits :=
    (if needLeftPush then [(l, Side.Left)] else []) ++
    (if needRightPush then [(r, Side.Right)] else [])
  let leftReaded1 := if needLeftPush then false else st.leftReaded
  let rightReaded1 := if needRightPush then false else st.rightReaded
  if ordIsLe cmp && !needReadLeft then
    (emits, true,
     { leftReaded := true, rightReaded := rightReaded1,
       oldLeftValue := some l.2 })
  else
    (emits, false,
     { leftReaded := leftReaded1, rightReaded := true,
       oldLeftValue := st.oldLeftValue })

/-- Tail drain of the left cursor (Merger::handle lines 194-216): iterate
the remaining left heads; the current head is pushed only when left_readed
holds and the strategy is Or or AndNot; every later head is pushed because
the flag is reset to true after each advance. -/
def drainLeft (strat : MergeStrategy) (leftReaded : Bool) :
    List Head → List (Head × Side)
  | [] => []
  | h :: rest =>
    (if leftReaded then
      match strat with
      | MergeStrategy.Or => [(h, Side.Left)]
      | MergeStrategy.AndNot => [(h, Side.Left)]
      | MergeStrategy.And => []
    else []) ++ drainLeft strat true rest

/-- Tail drain of the right cursor (Merger::handle lines 218-240): the loop
reads every remaining right head but pushes only under Or. -/
def drainRight (strat : MergeStrategy) (rightReaded : Bool) :
    List Head → List (Head × Side)
  | [] => []
  | h :: rest =>
    (if rightReaded then
      match strat with
      | MergeStrategy.Or => [(h, Side.Right)]
      | MergeStrategy.And => []
      | MergeStrategy.AndNot => []
    else []) ++ drainRight strat true rest

/-- Tail phase of Merger::handle after the main loop: both drain loops are
guarded by merge_strategy != And. -/
def tailPhase (strat : MergeStrategy) (leftReaded rightReaded : Bool)
    (ls rs : List Head) : List (Head × Side) :=
  (if strat ≠ MergeStrategy.And then drainLeft strat leftReaded ls else []) ++
  (if strat ≠ MergeStrategy.And then drainRight strat rightReaded rs else [])

/-!  Dedup handlers (src/csv/deduplicate.rs).  Each handler owns a writer;
the model returns the list of rows written.  Keys are read from the row at
the side's key index, as in the source. -/

/-- Key field of a row for its side (the get(..).unwrap() pattern shared by
the handlers in src/csv/deduplicate.rs). -/
def getKeyField (lki rki : Nat) (row : Row) (side : Side) : Field :=
  row.getD (match side with | Side.Left => lki | Side.Right => rki) []

/-- State of KeepFirstStrategyHandler: the one-record look-behind and the
duplicate counter. -/
structure KFState where
  lastRecord : Option (Row × Side)
  duplicatesCounter : Nat
deriving DecidableEq, Repr

/-- Freshly built KeepFirstStrategyHandler. -/
def kfInit : KFState := { lastRecord := none, duplicatesCounter := 0 }

/-- KeepFirstStrategyHandler::add_row: compare the incoming key with the
look-behind's key; write the look-behind whenever the counter is zero;
then update the counter from the equality and store the new look-behind. -/
def kfAdd (lki rki : Nat) (st : KFState) (row : Row) (side : Side) :
    KFState × List Row :=
  let eq :=
    match st.lastRecord with
    | some (lr, lrSide) =>
      decide (getKeyField lki rki lr lrSide = getKeyField lki rki row side)
    | none => false
  let writes :=
    if st.duplicatesCounter = 0 then
      match st.lastRecord with
      | some (lr, _) => [lr]
      | none => []
    else []
  let counter1 := if eq then st.duplicatesCounter + 1 else 0
  ({ lastRecord := some (row, side), duplicatesCounter := counter1 }, writes)

/-- KeepFirstStrategyHandler::flush: write the look-behind when the counter
is zero; the handler state is left unchanged. -/
def kfFlush (st : KFState) : KFState × List Row :=
  (st,
   if st.duplicatesCounter = 0 then
     match st.lastRecord with
     | some (lr, _) => [lr]
     | none => []
   else [])

/-- Rows written by a run of KeepFirst adds followed by the final flush. -/
def kfProcess (lki rki : Nat) (st : KFState) : List (Row × Side) → List Row
  | [] => (kfFlush st).2
  | (row, side) :: rest =>
    let step := kfAdd lki rki st row side
    step.2 ++ kfProcess lki rki step.1 rest

/-- ByteRecord::as_slice: the concatenation of all fields of a record,
used by the remove-similar sorts. -/
def rowBytes (r : Row) : Field := r.foldl (fun acc f => acc ++ f) []

/-- Boolean comparison by row bytes: a sorts no later than b. -/
def rowBytesLe (a b : Row) : Bool := ordIsLe (compareBytes (rowBytes a) (rowBytes b))

/-- Stable insertion of an element after every kept element that sorts no
later than it (models one element of Vec::sort_by, which is stable). -/
def insertStable {A : Type} (le : A → A → Bool) (a : A) : List A → List A
  | [] => [a]
  | b :: bs => if le b a then b :: insertStable le a bs else a :: b :: bs

/-- Stable sort by repeated insertion (models Vec::sort_by). -/
def sortStable {A : Type} (le : A → A → Bool) (l : List A) : List A :=
  l.foldl (fun acc a => insertStable le a acc) []

/-- Vec::dedup: remove consecutive equal elements, keeping one per run. -/
def dedupAdj {A : Type} [DecidableEq A] : List A → List A
  | [] => []
  | [a] => [a]
  | a :: b :: rest =>
    if a = b then dedupAdj (a :: rest) else a :: dedupAdj (b :: rest)

/-- Field-wise overlay in CrossJoinStrategyHandler::flush_duplicates:
start from the left record's fields and overwrite position i with the
right record's field i whenever that field is non-empty. -/
def composeRow (x y : Row) : Row :=
  y.enum.foldl (fun acc p => if p.2 ≠ [] then acc.set p.1 p.2 else acc) x

/-- Buffered rows tagged Left, in arrival order (the left_records filter in
CrossJoinStrategyHandler::flush_duplicates). -/
def leftRecordsOf (dups : List (Row × Side)) : List Row :=
  (dups.filter (fun x => x.2 = Side.Left)).map (fun x => x.1)

/-- Buffered rows tagged Right, in arrival order (the right_records filter
in CrossJoinStrategyHandler::flush_duplicates). -/
def rightRecordsOf (dups : List (Row × Side)) : List Row :=
  (dups.filter (fun x => x.2 = Side.Right)).map (fun x => x.1)

/-- CrossJoinStrategyHandler::flush_duplicates on a buffered run: under
remove_similar first stable-sort by row bytes and drop adjacent equal
(row, side) entries; then partition by side and emit the cross product of
composed rows, or the non-empty side as-is. -/
def cjFlushDuplicates (removeSimilar : Bool) (dups : List (Row × Side)) :
    List Row :=
  let dups1 :=
    if removeSimilar then
      dedupAdj (sortStable (fun a b => rowBytesLe a.1 b.1) dups)
    else dups
  if (rightRecordsOf dups1).length > 0 ∧ (leftRecordsOf dups1).length > 0 then
    (leftRecordsOf dups1).flatMap
      (fun x => (rightRecordsOf dups1).map (fun y => composeRow x y))
  else if (rightRecordsOf dups1).length > 0 then rightRecordsOf dups1
  else leftRecordsOf dups1

/-- State of CrossJoinStrategyHandler: look-behind, buffered run, and the
remove_similar flag. -/
structure CJState where
  lastRow : Option (Row × Side)
  duplicates : List (Row × Side)
  removeSimilar : Bool
deriving DecidableEq, Repr

/-- Freshly built CrossJoinStrategyHandler. -/
def cjInit (removeSimilar : Bool) : CJState :=
  { lastRow := none, duplicates := [], removeSimilar := removeSimilar }

/-- CrossJoinStrategyHandler::add_row: when a look-behind exists, an
unequal key with a non-empty buffer first flushes the run; the row is then
buffered exactly when the buffer is non-empty on an equal key or empty on
an unequal key, and otherwise only the (empty) buffer is flushed again and
the row is dropped; finally the look-behind becomes the incoming row. -/
def cjAdd (lki rki : Nat) (st : CJState) (row : Row) (side : Side) :
    CJState × List Row :=
  match st.lastRow with
  | none =>
    ({ st with lastRow := some (row, side),
               duplicates := st.duplicates ++ [(row, side)] }, [])
  | some (lr, lrSide) =>
    let isEqual :=
      decide (getKeyField lki rki lr lrSide = getKeyField lki rki row side)
    let w1 :=
      if !isEqual && decide (st.duplicates.length > 0) then
        cjFlushDuplicates st.removeSimilar st.duplicates
      else []
    let dups1 :=
      if !isEqual && decide (st.duplicates.length > 0) then []
      else st.duplicates
    if (isEqual && decide (dups1.length > 0)) ||
       (!isEqual && decide (dups1.length = 0)) then
      ({ st with lastRow := some (row, side),
                 duplicates := dups1 ++ [(row, side)] }, w1)
    else
      ({ st with lastRow := some (row, side), duplicates := [] },
       w1 ++ cjFlushDuplicates st.removeSimilar dups1)

/-- CrossJoinStrategyHandler::flush: flush the open run. -/
def cjFlush (st : CJState) : CJState × List Row :=
  ({ st with duplicates := [] },
   cjFlushDuplicates st.removeSimilar st.duplicates)

/-- Handler state reached from a freshly built CrossJoinStrategyHandler by
a sequence of add calls alone. -/
def cjReach (lki rki : Nat) (removeSimilar : Bool)
    (adds : List (Row × Side)) : CJState :=
  adds.foldl (fun st a => (cjAdd lki rki st a.1 a.2).1) (cjInit removeSimilar)

/-- RemoveSimilarStrategyHandler::flush_duplicates: stable-sort the run by
row bytes, drop adjacent equal rows, write the survivors. -/
def rsFlushDuplicates (dups : List Row) : List Row :=
  dedupAdj (sortStable rowBytesLe dups)

/-- State of RemoveSimilarStrategyHandler: look-behind and buffered run
(rows only, no side tag in the buffer). -/
structure RSState where
  lastRow : Option (Row × Side)
  duplicates : List Row
deriving DecidableEq, Repr

/-- Freshly built RemoveSimilarStrategyHandler. -/
def rsInit : RSState := { lastRow := none, duplicates := [] }

/-- RemoveSimilarStrategyHandler::add_row: same run-boundary logic as
CrossJoinStrategyHandler::add_row, buffering rows without side tags. -/
def rsAdd (lki rki : Nat) (st : RSState) (row : Row) (side : Side) :
    RSState × List Row :=
  match st.lastRow with
  | none =>
    ({ st with lastRow := some (row, side),
               duplicates := st.duplicates ++ [row] }, [])
  | some (lr, lrSide) =>
    let isEqual :=
      decide (getKeyField lki rki lr lrSide = getKeyField lki rki row side)
    let w1 :=
      if !isEqual && decide (st.duplicates.length > 0) then
        rsFlushDuplicates st.duplicates
      else []
    let dups1 :=
      if !isEqual && decide (st.duplicates.length > 0) then []
      else st.duplicates
    if (isEqual && decide (dups1.length > 0)) ||
       (!isEqual && decide (dups1.length = 0)) then
      ({ st with lastRow := some (row, side),
                 duplicates := dups1 ++ [row] }, w1)
    else
      ({ st with lastRow := some (row, side), duplicates := [] },
       w1 ++ rsFlushDuplicates dups1)

/-- Handler state reached from a freshly built RemoveSimilarStrategyHandler
by a sequence of add calls alone. -/
def rsReach (lki rki : Nat) (adds : List (Row × Side)) : RSState :=
  adds.foldl (fun st a => (rsAdd lki rki st a.1 a.2).1) rsInit

/-!  Helper lemmas. -/

theorem drainLeft_or_true (ls : List Head) :
    drainLeft MergeStrategy.Or true ls = ls.map (fun h => (h, Side.Left)) := by
  induction ls with
  | nil => rfl
  | cons h t ih => simp [drainLeft, ih]

theorem drainLeft_andnot_true (ls : List Head) :
    drainLeft MergeStrategy.AndNot true ls =
      ls.map (fun h => (h, Side.Left)) := by
  induction ls with
  | nil => rfl
  | cons h t ih => simp [drainLeft, ih]

theorem drainRight_or_true (rs : List Head) :
    drainRight MergeStrategy.Or true rs =
      rs.map (fun h => (h, Side.Right)) := by
  induction rs with
  | nil => rfl
  | cons h t ih => simp [drainRight, ih]

/-!  C6: tail handling after one cursor exhausts. -/

/-- C6.  After one cursor is exhausted: under AND nothing further is
emitted from either side; under OR the remaining heads of both cursors are
drained and emitted with their sides, skipping the current head when its
freshness token is already spent; under AND-NOT the same holds for the
remaining left heads while all remaining right heads are read and
discarded. -/
theorem tail_phase_drain_spec (lr rr : Bool) (ls rs : List Head) :
    tailPhase MergeStrategy.And lr rr ls rs = [] ∧
    tailPhase MergeStrategy.Or lr rr ls rs =
      (if lr then ls else ls.drop 1).map (fun h => (h, Side.Left)) ++
      (if rr then rs else rs.drop 1).map (fun h => (h, Side.Right)) ∧
    tailPhase MergeStrategy.AndNot lr rr ls rs =
      (if lr then ls else ls.drop 1).map (fun h => (h, Side.Left)) := by
  refine ⟨by simp [tailPhase], ?_, ?_⟩
  · have hl : drainLeft MergeStrategy.Or lr ls =
        (if lr then ls else ls.drop 1).map (fun h => (h, Side.Left)) := by
      cases lr with
      | true => simp [drainLeft_or_true]
      | false =>
        cases ls with
        | nil => rfl
        | cons h t => simp [drainLeft, drainLeft_or_true]
    have hr : drainRight MergeStrategy.Or rr rs =
        (if rr then rs else rs.drop 1).map (fun h => (h, Side.Right)) := by
      cases rr with
      | true => simp [drainRight_or_true]
      | false =>
        cases rs with
        | nil => rfl
        | cons h t => simp [drainRight, drainRight_or_true]
    simp [tailPhase, hl, hr]
  · have hl : drainLeft MergeStrategy.AndNot lr ls =
        (if lr then ls else ls.drop 1).map (fun h => (h, Side.Left)) := by
      cases lr with
      | true => simp [drainLeft_andnot_true]
      | false =>
        cases ls with
        | nil => rfl
        | cons h t => simp [drainLeft, drainLeft_andnot_true]
    have hr : drainRight MergeStrategy.AndNot rr rs = [] := by
      cases rr with
      | true =>
        induction rs with
        | nil => rfl
        | cons h t ih => simpa [drainRight] using ih
      | false =>
        cases rs with
        | nil => rfl
        | cons h t =>
          have : drainRight MergeStrategy.AndNot true t = [] := by
            induction t with
            | nil => rfl
            | cons h2 t2 ih => simpa [drainRight] using ih
          simp [drainRight, this]
    simp [tailPhase, hl, hr]

/-!  C3: a data row rejected by the record-IO layer mid-stream. -/

/-- C3 counterexample.  The claim says a data row that the record-IO layer
rejects mid-stream causes the merge to fail; the source matches
Some(Ok(record)) only, so read_record maps an error item to the very same
result as a finished iterator, and the merge loop ends normally instead of
failing. -/
theorem read_record_error_counterexample :
    readRecord (E := Unit) [Except.error ()] [some 0] (some 0) = none ∧
    readRecord (E := Unit) [] [some 0] (some 0) = none :=
  ⟨rfl, rfl⟩

/-- C3 amended.  Every row the record-IO layer rejects while it is the head
of the remaining stream is swallowed: read_record returns the end-of-input
result none, exactly as for an exhausted iterator, so the merge driver
treats the rejection as end of input rather than surfacing an error. -/
theorem read_record_swallows_errors {E : Type} (e : E)
    (rest : List (Except E Row)) (mapping : List (Option Nat))
    (k : Option Nat) :
    readRecord (Except.error e :: rest) mapping k = none ∧
    readRecord ([] : List (Except E Row)) mapping k = none :=
  ⟨rfl, rfl⟩

/-!  C10: KeepFirst flush is not idempotent. -/

/-- C10.  KeepFirstStrategyHandler::flush writes the look-behind row
whenever the duplicate counter is zero and leaves the handler state
untouched, so two consecutive flushes in such a state write the same
look-behind row twice. -/
theorem keep_first_flush_not_idempotent (st : KFState) (r : Row) (s : Side)
    (hc : st.duplicatesCounter = 0) (hl : st.lastRecord = some (r, s)) :
    (kfFlush st).2 = [r] ∧ (kfFlush st).1 = st ∧
    (kfFlush st).2 ++ (kfFlush (kfFlush st).1).2 = [r, r] := by
  simp [kfFlush, hc, hl]

/-- Concrete KeepFirst state holding one look-behind row and a zero
counter, for evaluating the flush theorem. -/
def kfStateOneRow : KFState :=
  { lastRecord := some ([[49]], Side.Left), duplicatesCounter := 0 }

/-- C10 witness at a concrete one-row state. -/
theorem keep_first_flush_not_idempotent_witness :
    (kfFlush kfStateOneRow).2 = [[[49]]] ∧
    (kfFlush kfStateOneRow).1 = kfStateOneRow ∧
    (kfFlush kfStateOneRow).2 ++ (kfFlush (kfFlush kfStateOneRow).1).2 =
      [[[49]], [[49]]] :=
  keep_first_flush_not_idempotent kfStateOneRow [[49]] Side.Left rfl rfl

/-!  C5: run-boundary handlers on an equal key with look-behind present and
an empty run buffer. -/

/-- Concrete CrossJoin handler state with a look-behind present and an
empty run buffer (reachable by add; flush; in the source). -/
def cjStateEmptyBuffer : CJState :=
  { lastRow := some ([[49], [97]], Side.Left), duplicates := [],
    removeSimilar := false }

/-- C5 counterexample.  In the state with look-behind key 49 and empty
buffer, adding a row with the same key 49 leaves the buffer empty instead
of appending the incoming row as the claim states: the add falls into the
branch that flushes the (empty) buffer and drops the row. -/
theorem run_boundary_equal_key_counterexample :
    (cjAdd 0 0 cjStateEmptyBuffer [[49], [98]] Side.Left).1.duplicates = [] ∧
    (cjAdd 0 0 cjStateEmptyBuffer [[49], [98]] Side.Left).2 = [] ∧
    (cjAdd 0 0 cjStateEmptyBuffer [[49], [98]] Side.Left).1.duplicates ≠
      [([[49], [98]], Side.Left)] := by
  refine ⟨rfl, rfl, ?_⟩
  decide

/-- C5 amended.  For RemoveSimilar and CrossJoin (with or without
remove-similar), in every state where the look-behind is present and the
run buffer is empty, an add whose incoming key equals the look-behind's
key DISCARDS the incoming row: the buffer stays empty, nothing is written,
and only the look-behind is set to the incoming row. -/
theorem run_boundary_equal_key_empty_buffer_drops (lki rki : Nat)
    (lr row : Row) (ls s : Side) (rs : Bool)
    (h : getKeyField lki rki lr ls = getKeyField lki rki row s) :
    cjAdd lki rki { lastRow := some (lr, ls), duplicates := [],
                    removeSimilar := rs } row s =
      ({ lastRow := some (row, s), duplicates := [], removeSimilar := rs },
       []) ∧
    rsAdd lki rki { lastRow := some (lr, ls), duplicates := [] } row s =
      ({ lastRow := some (row, s), duplicates := [] }, []) := by
  constructor
  · simp [cjAdd, h, cjFlushDuplicates, sortStable, dedupAdj,
      leftRecordsOf, rightRecordsOf]
  · simp [rsAdd, h, rsFlushDuplicates, sortStable, dedupAdj]

/-- C5 witness: the amended behaviour at the concrete state of the
counterexample, with key bytes 49 on both sides. -/
theorem run_boundary_equal_key_empty_buffer_drops_witness :
    cjAdd 0 0 { lastRow := some (([[49], [97]] : Row), Side.Left),
                duplicates := [], removeSimilar := false }
        [[49], [98]] Side.Left =
      ({ lastRow := some ([[49], [98]], Side.Left), duplicates := [],
         removeSimilar := false }, []) ∧
    rsAdd 0 0 { lastRow := some (([[49], [97]] : Row), Side.Left),
                duplicates := [] } [[49], [98]] Side.Left =
      ({ lastRow := some ([[49], [98]], Side.Left), duplicates := [] },
       []) :=
  run_boundary_equal_key_empty_buffer_drops 0 0 [[49], [97]] [[49], [98]]
    Side.Left Side.Left false (by decide)

/-!  C2: KeepFirst run semantics. -/

/-- Scenario E adds as the merge driver delivers them under OR with an
empty right body: left rows 1 a, 1 b and 2 c (ASCII bytes), key column 0,
all tagged Left. -/
def scenarioEAdds : List (Row × Side) :=
  [([[49], [97]], Side.Left), ([[49], [98]], Side.Left),
   ([[50], [99]], Side.Left)]

/-- C2 counterexample.  On Scenario E the KeepFirst handler writes the
first row of the key-1 run followed by the key-2 row, not the key-2 row
alone: the run of length 2 is collapsed to its first row, not suppressed. -/
theorem keep_first_scenario_e_counterexample :
    kfProcess 0 0 kfInit scenarioEAdds = [[[49], [97]], [[50], [99]]] ∧
    kfProcess 0 0 kfInit scenarioEAdds ≠ [[[50], [99]]] := by
  constructor
  · rfl
  · decide

/-- Rows of a chain of adds whose key differs from the key of the add just
before them, the previous add being the accumulator argument; these are
exactly the first rows of the maximal equal-key runs after the chain
head. -/
def firstOfRunsFrom (lki rki : Nat) (p : Row × Side) :
    List (Row × Side) → List Row
  | [] => []
  | a :: rest =>
    (if getKeyField lki rki p.1 p.2 = getKeyField lki rki a.1 a.2 then []
     else [a.1]) ++ firstOfRunsFrom lki rki a rest

/-- KeepFirst from a look-behind state: when the counter is zero the
look-behind row is written at the next add or at the flush, and afterwards
exactly the run-opening rows are written. -/
theorem kfProcess_from_state (lki rki : Nat) (l : List (Row × Side))
    (p : Row × Side) (c : Nat) :
    kfProcess lki rki { lastRecord := some p, duplicatesCounter := c } l =
      (if c = 0 then [p.1] else []) ++ firstOfRunsFrom lki rki p l := by
  induction l generalizing p c with
  | nil => simp [kfProcess, kfFlush, firstOfRunsFrom]
  | cons a rest ih =>
    obtain ⟨row, side⟩ := a
    by_cases heq :
      getKeyField lki rki p.1 p.2 = getKeyField lki rki row side
    · simp [kfProcess, kfAdd, heq, firstOfRunsFrom, ih]
    · simp [kfProcess, kfAdd, heq, firstOfRunsFrom, ih]

/-- C2 amended.  The KeepFirst handler writes exactly the first row of
every maximal run: a run of length ≥ 2 is collapsed to its first row (not
suppressed) and a singleton key's row is written; on Scenario E the output
after the header is 1 a followed by 2 c. -/
theorem keep_first_emits_first_of_each_run (lki rki : Nat)
    (a : Row × Side) (rest : List (Row × Side)) :
    kfProcess lki rki kfInit (a :: rest) =
      a.1 :: firstOfRunsFrom lki rki a rest := by
  obtain ⟨row, side⟩ := a
  simp [kfProcess, kfAdd, kfInit, kfProcess_from_state]

/-!  C9: the run buffer is non-empty whenever a look-behind exists, along
add-only traces, and every add lands its row at the end of the buffer. -/

theorem getLast?_append_singleton {A : Type} (l : List A) (a : A) :
    (l ++ [a]).getLast? = some a := by
  rw [List.getLast?_append_cons]
  rfl

/-- One CrossJoin add from a state satisfying the invariant: the new state
has a look-behind and its buffer ends with the incoming row. -/
theorem cjAdd_keeps_buffer (lki rki : Nat) (st : CJState) (row : Row)
    (side : Side) (h : st.lastRow.isSome = true → st.duplicates ≠ []) :
    (cjAdd lki rki st row side).1.lastRow.isSome = true ∧
    (cjAdd lki rki st row side).1.duplicates.getLast? = some (row, side) := by
  cases hlast : st.lastRow with
  | none => simp [cjAdd, hlast, getLast?_append_singleton]
  | some p =>
    obtain ⟨lr, ls⟩ := p
    have hd : st.duplicates ≠ [] := h (by simp [hlast])
    have hlen : 0 < st.duplicates.length := List.length_pos.mpr hd
    by_cases heq : getKeyField lki rki lr ls = getKeyField lki rki row side
    · simp [cjAdd, hlast, heq, hlen, Nat.pos_iff_ne_zero,
        getLast?_append_singleton]
    · simp [cjAdd, hlast, heq, hlen, Nat.pos_iff_ne_zero,
        getLast?_append_singleton]

/-- One RemoveSimilar add from a state satisfying the invariant. -/
theorem rsAdd_keeps_buffer (lki rki : Nat) (st : RSState) (row : Row)
    (side : Side) (h : st.lastRow.isSome = true → st.duplicates ≠ []) :
    (rsAdd lki rki st row side).1.lastRow.isSome = true ∧
    (rsAdd lki rki st row side).1.duplicates.getLast? = some row := by
  cases hlast : st.lastRow with
  | none => simp [rsAdd, hlast, getLast?_append_singleton]
  | some p =>
    obtain ⟨lr, ls⟩ := p
    have hd : st.duplicates ≠ [] := h (by simp [hlast])
    have hlen : 0 < st.duplicates.length := List.length_pos.mpr hd
    by_cases heq : getKeyField lki rki lr ls = getKeyField lki rki row side
    · simp [rsAdd, hlast, heq, hlen, Nat.pos_iff_ne_zero,
        getLast?_append_singleton]
    · simp [rsAdd, hlast, heq, hlen, Nat.pos_iff_ne_zero,
        getLast?_append_singleton]

theorem cjFold_inv (lki rki : Nat) (adds : List (Row × Side)) (st : CJState)
    (h : st.lastRow.isSome = true → st.duplicates ≠ []) :
    (adds.foldl (fun st a => (cjAdd lki rki st a.1 a.2).1) st).lastRow.isSome
        = true →
      (adds.foldl (fun st a => (cjAdd lki rki st a.1 a.2).1) st).duplicates
        ≠ [] := by
  induction adds generalizing st with
  | nil => simpa using h
  | cons a rest ih =>
    simp only [List.foldl_cons]
    apply ih
    intro _
    have hk := cjAdd_keeps_buffer lki rki st a.1 a.2 h
    intro hnil
    rw [hnil] at hk
    simp at hk

theorem rsFold_inv (lki rki : Nat) (adds : List (Row × Side)) (st : RSState)
    (h : st.lastRow.isSome = true → st.duplicates ≠ []) :
    (adds.foldl (fun st a => (rsAdd lki rki st a.1 a.2).1) st).lastRow.isSome
        = true →
      (adds.foldl (fun st a => (rsAdd lki rki st a.1 a.2).1) st).duplicates
        ≠ [] := by
  induction adds generalizing st with
  | nil => simpa using h
  | cons a rest ih =>
    simp only [List.foldl_cons]
    apply ih
    intro _
    have hk := rsAdd_keeps_buffer lki rki st a.1 a.2 h
    intro hnil
    rw [hnil] at hk
    simp at hk

/-- C9.  Along every add-only trace from a freshly built handler
(RemoveSimilar or CrossJoin, with or without remove-similar), a present
look-behind implies a non-empty run buffer; consequently the next add never
hits the discarding branch: it appends its row as the new last element of
the buffer, either extending the open run or opening a fresh one. -/
theorem run_buffer_invariant (lki rki : Nat) (removeSimilar : Bool)
    (adds : List (Row × Side)) (row : Row) (side : Side) :
    ((cjReach lki rki removeSimilar adds).lastRow.isSome = true →
      (cjReach lki rki removeSimilar adds).duplicates ≠ []) ∧
    (cjAdd lki rki (cjReach lki rki removeSimilar adds) row
        side).1.duplicates.getLast? = some (row, side) ∧
    ((rsReach lki rki adds).lastRow.isSome = true →
      (rsReach lki rki adds).duplicates ≠ []) ∧
    (rsAdd lki rki (rsReach lki rki adds) row side).1.duplicates.getLast?
      = some row := by
  have hcj : (cjReach lki rki removeSimilar adds).lastRow.isSome = true →
      (cjReach lki rki removeSimilar adds).duplicates ≠ [] :=
    cjFold_inv lki rki adds (cjInit removeSimilar) (by simp [cjInit])
  have hrs : (rsReach lki rki adds).lastRow.isSome = true →
      (rsReach lki rki adds).duplicates ≠ [] :=
    rsFold_inv lki rki adds rsInit (by simp [rsInit])
  exact ⟨hcj,
    (cjAdd_keeps_buffer lki rki _ row side hcj).2, hrs,
    (rsAdd_keeps_buffer lki rki _ row side hrs).2⟩

/-- C9 witness at a concrete one-add trace with a following add. -/
theorem run_buffer_invariant_witness :
    (cjReach 0 0 false [([[49]], Side.Left)]).duplicates ≠ [] ∧
    (cjAdd 0 0 (cjReach 0 0 false [([[49]], Side.Left)]) [[50]]
        Side.Right).1.duplicates.getLast? = some ([[50]], Side.Right) ∧
    (rsReach 0 0 [([[49]], Side.Left)]).duplicates ≠ [] ∧
    (rsAdd 0 0 (rsReach 0 0 [([[49]], Side.Left)]) [[50]]
        Side.Right).1.duplicates.getLast? = some [[50]] := by
  have h := run_buffer_invariant 0 0 false [([[49]], Side.Left)] [[50]]
    Side.Right
  exact ⟨h.1 (by decide), h.2.1, h.2.2.1 (by decide), h.2.2.2⟩

/-!  C8: the output header list. -/

/-- Removal of later duplicates with the first occurrence winning, written
directly from the specification's words: keep the head and deduplicate the
tail with every later copy of the head removed. -/
def specDedupFirst : List String → List String
  | [] => []
  | x :: xs => x :: specDedupFirst (xs.filter (fun y => !decide (y = x)))
termination_by l => l.length
decreasing_by
  exact Nat.lt_succ_of_le (List.length_filter_le _ _)

theorem dedupInsertFilter_eq_spec (xs : List String) (seen : List String) :
    dedupInsertFilter seen xs =
      specDedupFirst (xs.filter (fun y => !decide (y ∈ seen))) := by
  induction xs generalizing seen with
  | nil => simp [dedupInsertFilter, specDedupFirst]
  | cons x rest ih =>
    by_cases hx : x ∈ seen
    · simp [dedupInsertFilter, hx, List.filter_cons, ih]
    · have hfilter :
          (rest.filter (fun y => !decide (y ∈ seen))).filter
              (fun y => !decide (y = x))
            = rest.filter (fun y => !decide (y ∈ x :: seen)) := by
        rw [List.filter_filter]
        apply List.filter_congr
        intro a _
        by_cases h1 : a = x <;> by_cases h2 : a ∈ seen <;> simp [h1, h2]
      simp [dedupInsertFilter, hx, List.filter_cons, specDedupFirst,
        hfilter, ih]

theorem specDedupFirst_subset (l : List String) :
    ∀ x, x ∈ specDedupFirst l → x ∈ l := by
  induction l using specDedupFirst.induct with
  | case1 => intro x hx; simp [specDedupFirst] at hx
  | case2 a xs ih =>
    intro x hx
    rw [specDedupFirst] at hx
    rcases List.mem_cons.mp hx with h | h
    · simp [h]
    · have := ih x h
      have := List.mem_of_mem_filter this
      simp [this]

theorem specDedupFirst_nodup (l : List String) :
    (specDedupFirst l).Nodup := by
  induction l using specDedupFirst.induct with
  | case1 => simp [specDedupFirst]
  | case2 a xs ih =>
    rw [specDedupFirst]
    refine List.nodup_cons.mpr ⟨?_, ih⟩
    intro hmem
    have h1 := specDedupFirst_subset _ _ hmem
    have h2 := List.of_mem_filter h1
    simp [bne] at h2

theorem specDedupFirst_mem (l : List String) :
    ∀ x, x ∈ l → x ∈ specDedupFirst l := by
  induction l using specDedupFirst.induct with
  | case1 => intro x hx; simp at hx
  | case2 a xs ih =>
    intro x hx
    rw [specDedupFirst]
    rcases List.mem_cons.mp hx with h | h
    · simp [h]
    · by_cases hxa : x = a
      · simp [hxa]
      · refine List.mem_cons.mpr (Or.inr (ih x ?_))
        refine List.mem_filter.mpr ⟨h, ?_⟩
        simp [bne, hxa]

/-- C8.  The computed output header list is the concatenation of the
retained left headers with the retained right headers, with later
duplicates removed so that the first occurrence wins; it has no duplicate
names and contains every retained header of both inputs. -/
theorem get_output_headers_spec (l r : List (Option String)) :
    getOutputHeaders l r =
      specDedupFirst (l.filterMap id ++ r.filterMap id) ∧
    (getOutputHeaders l r).Nodup ∧
    (∀ x, some x ∈ l → x ∈ getOutputHeaders l r) ∧
    (∀ x, some x ∈ r → x ∈ getOutputHeaders l r) := by
  have heq : getOutputHeaders l r =
      specDedupFirst (l.filterMap id ++ r.filterMap id) := by
    rw [getOutputHeaders, dedupInsertFilter_eq_spec]
    congr 1
    simp
  refine ⟨heq, ?_, ?_, ?_⟩
  · rw [heq]; exact specDedupFirst_nodup _
  · intro x hx
    rw [heq]
    refine specDedupFirst_mem _ x ?_
    refine List.mem_append.mpr (Or.inl ?_)
    exact List.mem_filterMap.mpr ⟨some x, hx, rfl⟩
  · intro x hx
    rw [heq]
    refine specDedupFirst_mem _ x ?_
    refine List.mem_append.mpr (Or.inr ?_)
    exact List.mem_filterMap.mpr ⟨some x, hx, rfl⟩

/-- C8 witness on Scenario B's headers: left key A B, right key B C. -/
theorem get_output_headers_spec_witness :
    getOutputHeaders [some "key", some "A", some "B"]
        [some "key", some "B", some "C"] =
      specDedupFirst (([some "key", some "A", some "B"] :
          List (Option String)).filterMap id ++
        ([some "key", some "B", some "C"] :
          List (Option String)).filterMap id) ∧
    (getOutputHeaders [some "key", some "A", some "B"]
        [some "key", some "B", some "C"]).Nodup ∧
    "A" ∈ getOutputHeaders [some "key", some "A", some "B"]
        [some "key", some "B", some "C"] ∧
    "C" ∈ getOutputHeaders [some "key", some "A", some "B"]
        [some "key", some "B", some "C"] := by
  have h := get_output_headers_spec [some "key", some "A", some "B"]
    [some "key", some "B", some "C"]
  exact ⟨h.1, h.2.1, h.2.2.1 "A" (by simp), h.2.2.2 "C" (by simp)⟩

/-!  C4: where the key-column indices are resolved. -/

theorem keyFold_no_match (key : String) (hs : List String)
    (h : key ∉ hs) :
    ∀ (n : Nat) (acc : Option Nat),
      (List.enumFrom n hs).foldl
          (fun acc p => if p.2 = key then some p.1 else acc) acc = acc := by
  induction hs with
  | nil => intro n acc; rfl
  | cons s rest ih =>
    intro n acc
    have hs0 : s ≠ key := fun hc => h (by simp [hc])
    have hrest : key ∉ rest := fun hc => h (by simp [hc])
    rw [List.enumFrom_cons]
    simp only [List.foldl_cons]
    rw [if_neg hs0]
    exact ih hrest (n + 1) acc

theorem keyFold_some_of_mem (key : String) (hs : List String)
    (h : key ∈ hs) :
    ∀ (n : Nat) (acc : Option Nat), ∃ i,
      (List.enumFrom n hs).foldl
          (fun acc p => if p.2 = key then some p.1 else acc) acc = some i := by
  induction hs with
  | nil => cases h
  | cons s rest ih =>
    intro n acc
    rw [List.enumFrom_cons]
    simp only [List.foldl_cons]
    by_cases hrest : key ∈ rest
    · exact ih hrest (n + 1) _
    · have hs0 : s = key := by
        rcases List.mem_cons.mp h with h1 | h1
        · exact h1.symm
        · exact absurd h1 hrest
      rw [if_pos hs0]
      exact ⟨n, keyFold_no_match key rest hrest (n + 1) (some n)⟩

theorem keyFold_last_match (key : String) (hs : List String) :
    ∀ (n : Nat) (acc : Option Nat) (i : Nat),
      (List.enumFrom n hs).foldl
          (fun acc p => if p.2 = key then some p.1 else acc) acc = some i →
      (acc = some i ∧ key ∉ hs) ∨
      (∃ k, ∃ hk : k < hs.length, n + k = i ∧ hs.get ⟨k, hk⟩ = key ∧
        ∀ m, k < m → ∀ hm : m < hs.length, hs.get ⟨m, hm⟩ ≠ key) := by
  induction hs with
  | nil =>
    intro n acc i h
    exact Or.inl ⟨h, by simp⟩
  | cons s rest ih =>
    intro n acc i h
    rw [List.enumFrom_cons] at h
    simp only [List.foldl_cons] at h
    rcases ih (n + 1) _ i h with ⟨hacc, hnotin⟩ | ⟨k, hk, hnk, hget, hlater⟩
    · by_cases hs0 : s = key
      · rw [if_pos hs0] at hacc
        have hi : n = i := by
          injection hacc
        refine Or.inr ⟨0, by simp, by simpa using hi, by simpa using hs0, ?_⟩
        intro m hm hml
        cases m with
        | zero => cases hm
        | succ m2 =>
          have hml2 : m2 < rest.length := by
            simpa using hml
          show rest.get ⟨m2, hml2⟩ ≠ key
          intro hc
          exact hnotin (hc ▸ List.get_mem rest m2 hml2)
      · rw [if_neg hs0] at hacc
        refine Or.inl ⟨hacc, ?_⟩
        intro hc
        rcases List.mem_cons.mp hc with h1 | h1
        · exact hs0 h1.symm
        · exact hnotin h1
    · refine Or.inr ⟨k + 1, by simpa using hk, by omega, by simpa using hget, ?_⟩
      intro m hm hml
      cases m with
      | zero => cases hm
      | succ m2 =>
        have hml2 : m2 < rest.length := by simpa using hml
        have hm2 : k < m2 := by omega
        show rest.get ⟨m2, hml2⟩ ≠ key
        exact hlater m2 hm2 hml2

/-- C4 counterexample.  With left headers a, k and right headers k, b and
key name k on both sides, the union header list is a, k, b in which k sits
at index 1; the code resolves the right key index against the right input's
original header row and yields 0, not 1, so the indices are resolved
against the original inputs, not against the union. -/
theorem key_resolution_counterexample :
    (getHeaders ["k", "b"] "k" none).2 = some 0 ∧
    getOutputHeaders (getHeaders ["a", "k"] "k" none).1
        (getHeaders ["k", "b"] "k" none).1 = ["a", "k", "b"] ∧
    unionHeaderPos ["a", "k", "b"] "k" = some 1 ∧
    ((some 0 : Option Nat) ≠ some 1) := by
  refine ⟨by decide, by decide, by decide, by decide⟩

/-- C4 amended.  The key-column index of each side is resolved against
that side's ORIGINAL header list (before the callback and before the
union): get_headers returns the index of the last occurrence of the key
name in the original header row, returns none exactly when the key name is
absent, and a missing key column is fatal (the expect in Merger::handle,
modelled as resolveKeyIndex returning an error). -/
theorem getHeaders_resolves_against_original (hs : List String)
    (key : String) (cb : Option (String → Option String)) :
    ((getHeaders hs key cb).2 = none ↔ key ∉ hs) ∧
    (∀ i, (getHeaders hs key cb).2 = some i →
      ∃ hk : i < hs.length, hs.get ⟨i, hk⟩ = key ∧
        ∀ m, i < m → ∀ hm : m < hs.length, hs.get ⟨m, hm⟩ ≠ key) ∧
    (key ∉ hs →
      resolveKeyIndex (getHeaders hs key cb).2 =
        Except.error "missing key column") := by
  have hdef : (getHeaders hs key cb).2 =
      (List.enumFrom 0 hs).foldl
        (fun acc p => if p.2 = key then some p.1 else acc) none := rfl
  have hnone : (getHeaders hs key cb).2 = none ↔ key ∉ hs := by
    constructor
    · intro h hmem
      rcases keyFold_some_of_mem key hs hmem 0 none with ⟨i, hi⟩
      rw [hdef, hi] at h
      cases h
    · intro h
      rw [hdef]
      exact keyFold_no_match key hs h 0 none
  refine ⟨hnone, ?_, ?_⟩
  · intro i hi
    rw [hdef] at hi
    rcases keyFold_last_match key hs 0 none i hi with ⟨hacc, _⟩ | h
    · cases hacc
    · rcases h with ⟨k, hk, hnk, hget, hlater⟩
      have hki : k = i := by omega
      subst hki
      exact ⟨hk, hget, hlater⟩
  · intro h
    rw [hnone.mpr h]
    rfl

/-- C4 witness: the last-match characterization at headers a, k with key
k, and the fatal branch at headers a, b with key k. -/
theorem getHeaders_resolves_against_original_witness :
    (∃ hk : 1 < (["a", "k"] : List String).length,
      (["a", "k"] : List String).get ⟨1, hk⟩ = "k" ∧
      ∀ m, 1 < m → ∀ hm : m < (["a", "k"] : List String).length,
        (["a", "k"] : List String).get ⟨m, hm⟩ ≠ "k") ∧
    resolveKeyIndex (getHeaders ["a", "b"] "k" none).2 =
      Except.error "missing key column" :=
  ⟨(getHeaders_resolves_against_original ["a", "k"] "k" none).2.1 1
      (by decide),
   (getHeaders_resolves_against_original ["a", "b"] "k" none).2.2
      (by decide)⟩

/-!  C7: cross-join run output. -/

theorem cjFlushDuplicates_false (dups : List (Row × Side)) :
    cjFlushDuplicates false dups =
      if (rightRecordsOf dups).length > 0 ∧ (leftRecordsOf dups).length > 0
      then (leftRecordsOf dups).flatMap
        (fun x => (rightRecordsOf dups).map (fun y => composeRow x y))
      else if (rightRecordsOf dups).length > 0 then rightRecordsOf dups
      else leftRecordsOf dups := rfl

theorem foldl_overlay_nil (l : List (Nat × Field)) :
    l.foldl (fun acc p => if p.2 ≠ [] then acc.set p.1 p.2 else acc)
      ([] : Row) = [] := by
  induction l with
  | nil => rfl
  | cons p t ih =>
    simp only [List.foldl_cons]
    have hset : (([] : Row).set p.1 p.2) = [] := by
      simp [List.set]
    by_cases hp : p.2 = []
    · rw [if_neg (not_not_intro hp)]
      exact ih
    · rw [if_pos hp, hset]
      exact ih

theorem foldl_overlay_shift (ys : List Field) :
    ∀ (n : Nat) (h : Field) (t : Row),
      (List.enumFrom (n + 1) ys).foldl
          (fun acc p => if p.2 ≠ [] then acc.set p.1 p.2 else acc) (h :: t) =
        h :: (List.enumFrom n ys).foldl
          (fun acc p => if p.2 ≠ [] then acc.set p.1 p.2 else acc) t := by
  induction ys with
  | nil => intro n h t; rfl
  | cons f ys ih =>
    intro n h t
    rw [List.enumFrom_cons, List.enumFrom_cons]
    simp only [List.foldl_cons]
    by_cases hf : f = []
    · rw [if_neg (not_not_intro hf), if_neg (not_not_intro hf)]
      exact ih (n + 1) h t
    · rw [if_pos hf, if_pos hf, List.set_cons_succ]
      exact ih (n + 1) h (t.set n f)

theorem composeRow_cons (x : Field) (xs : Row) (y : Field) (ys : Row) :
    composeRow (x :: xs) (y :: ys) =
      (if y = [] then x else y) :: composeRow xs ys := by
  rw [composeRow, List.enum_cons]
  simp only [List.foldl_cons]
  by_cases hy : y = []
  · rw [if_neg (not_not_intro hy), if_pos hy]
    exact foldl_overlay_shift ys 0 x xs
  · rw [if_pos hy, if_neg hy, List.set_cons_zero]
    exact foldl_overlay_shift ys 0 y xs

theorem composeRow_nil_left (y : Row) : composeRow [] y = [] :=
  foldl_overlay_nil _

theorem composeRow_length (x y : Row) :
    (composeRow x y).length = x.length := by
  induction x generalizing y with
  | nil => simp [composeRow_nil_left]
  | cons a xs ih =>
    cases y with
    | nil => rfl
    | cons b ys => simp [composeRow_cons, ih]

theorem composeRow_get (x y : Row) :
    ∀ (i : Nat) (hx : i < x.length) (hy : i < y.length),
      (composeRow x y).get? i =
        some (if y.get ⟨i, hy⟩ = [] then x.get ⟨i, hx⟩
              else y.get ⟨i, hy⟩) := by
  induction x generalizing y with
  | nil => intro i hx; cases hx
  | cons a xs ih =>
    intro i hx hy
    cases y with
    | nil => cases hy
    | cons b ys =>
      cases i with
      | zero => by_cases hb : b = [] <;> simp [composeRow_cons, hb]
      | succ j =>
        have hx2 : j < xs.length := by simpa using hx
        have hy2 : j < ys.length := by simpa using hy
        have := ih ys j hx2 hy2
        simpa [composeRow_cons] using this

theorem length_cross_product (xs ys : List Row) :
    (xs.flatMap (fun x => ys.map (fun y => composeRow x y))).length =
      xs.length * ys.length := by
  induction xs with
  | nil => simp
  | cons a t ih => simp [ih, Nat.succ_mul, Nat.add_comm]

/-- C7.  When a plain cross-join run closes with m left-tagged buffered
rows and n right-tagged buffered rows: with both sides non-empty exactly
m times n composed rows are written, in X-major then Y-minor order
preserving arrival order in each side; with one side empty the non-empty
side passes through as-is, giving max(m, n) rows; composition takes field
i from the right row when that field is non-empty and from the left row
otherwise, and keeps the left row's width. -/
theorem cross_join_flush_spec (dups : List (Row × Side)) :
    ((cjFlushDuplicates false dups).length =
      if 0 < (leftRecordsOf dups).length ∧ 0 < (rightRecordsOf dups).length
      then (leftRecordsOf dups).length * (rightRecordsOf dups).length
      else max (leftRecordsOf dups).length (rightRecordsOf dups).length) ∧
    (0 < (leftRecordsOf dups).length → 0 < (rightRecordsOf dups).length →
      cjFlushDuplicates false dups =
        (leftRecordsOf dups).flatMap
          (fun x => (rightRecordsOf dups).map (fun y => composeRow x y))) ∧
    ((leftRecordsOf dups).length = 0 ∨ (rightRecordsOf dups).length = 0 →
      cjFlushDuplicates false dups =
        leftRecordsOf dups ++ rightRecordsOf dups) ∧
    (∀ x y : Row, (composeRow x y).length = x.length) ∧
    (∀ (x y : Row) (i : Nat) (hx : i < x.length) (hy : i < y.length),
      (composeRow x y).get? i =
        some (if y.get ⟨i, hy⟩ = [] then x.get ⟨i, hx⟩
              else y.get ⟨i, hy⟩)) := by
  refine ⟨?_, ?_, ?_, composeRow_length, fun x y => composeRow_get x y⟩
  · by_cases hl : 0 < (leftRecordsOf dups).length <;>
      by_cases hr : 0 < (rightRecordsOf dups).length
    · rw [cjFlushDuplicates_false, if_pos ⟨hr, hl⟩, if_pos ⟨hl, hr⟩,
        length_cross_product]
    · have hr0 : (rightRecordsOf dups).length = 0 := by omega
      rw [cjFlushDuplicates_false, if_neg (by omega), if_neg (by omega),
        if_neg (by omega)]
      simp [hr0]
    · have hl0 : (leftRecordsOf dups).length = 0 := by omega
      rw [cjFlushDuplicates_false, if_neg (by omega), if_pos hr,
        if_neg (by omega)]
      simp [hl0]
    · have hl0 : (leftRecordsOf dups).length = 0 := by omega
      have hr0 : (rightRecordsOf dups).length = 0 := by omega
      rw [cjFlushDuplicates_false, if_neg (by omega), if_neg (by omega),
        if_neg (by omega)]
      simp [hl0, hr0]
  · intro hl hr
    rw [cjFlushDuplicates_false, if_pos ⟨hr, hl⟩]
  · intro h
    rcases h with hl0 | hr0
    · have hl : leftRecordsOf dups = [] := List.length_eq_zero.mp hl0
      by_cases hr : (rightRecordsOf dups).length > 0
      · rw [cjFlushDuplicates_false, if_neg (by omega), if_pos hr, hl,
          List.nil_append]
      · have h2 : rightRecordsOf dups = [] :=
          List.length_eq_zero.mp (by omega)
        rw [cjFlushDuplicates_false, if_neg (by omega), if_neg hr, hl, h2]
        rfl
    · have h2 : rightRecordsOf dups = [] := List.length_eq_zero.mp hr0
      rw [cjFlushDuplicates_false, if_neg (by omega), if_neg (by omega), h2,
        List.append_nil]

/-- Scenario C run buffer: left rows 5 a and 5 b, right rows 5 x and 5 y,
already widened to the union header key, L, R. -/
def scenarioCDups : List (Row × Side) :=
  [([[53], [97], []], Side.Left), ([[53], [98], []], Side.Left),
   ([[53], [], [120]], Side.Right), ([[53], [], [121]], Side.Right)]

/-- C7 witness on the Scenario C run: 2 times 2 composed rows in X-major
order, and the composed first pair takes the non-empty right field. -/
theorem cross_join_flush_spec_witness :
    cjFlushDuplicates false scenarioCDups =
      (leftRecordsOf scenarioCDups).flatMap
        (fun x => (rightRecordsOf scenarioCDups).map
          (fun y => composeRow x y)) ∧
    (cjFlushDuplicates false scenarioCDups).length = 2 * 2 ∧
    (composeRow [[53], [97], []] [[53], [], [120]]).get? 2 =
      some [120] := by
  have h := cross_join_flush_spec scenarioCDups
  refine ⟨h.2.1 (by decide) (by decide), ?_, ?_⟩
  · have hlen := h.1
    rw [if_pos (by decide)] at hlen
    rw [hlen]
    decide
  · have h5 := h.2.2.2.2 [[53], [97], []] [[53], [], [120]] 2
      (by decide) (by decide)
    simpa using h5

/-!  C1: the per-iteration emission and advance rule of the merge loop. -/

/-- Left-emission condition of the specification's mode table, written from
the spec's words: AND emits on fresh and Equal; OR on fresh, cmp at most
Equal and no pending left re-read; AND-NOT on fresh, strictly Less and no
pending left re-read. -/
def specLeftCond (strat : MergeStrategy) (leftFresh : Bool) (cmp : Ordering)
    (needReadLeft : Prop) : Prop :=
  match strat with
  | MergeStrategy.And => leftFresh = true ∧ cmp = Ordering.eq
  | MergeStrategy.Or =>
    leftFresh = true ∧ cmp ≠ Ordering.gt ∧ ¬needReadLeft
  | MergeStrategy.AndNot =>
    leftFresh = true ∧ cmp = Ordering.lt ∧ ¬needReadLeft

/-- Right-emission condition of the specification's mode table: AND emits
on fresh and (Equal or carry-match); OR on fresh and cmp at least Equal;
AND-NOT never. -/
def specRightCond (strat : MergeStrategy) (rightFresh : Bool)
    (cmp : Ordering) (carryMatch : Prop) : Prop :=
  match strat with
  | MergeStrategy.And =>
    rightFresh = true ∧ (cmp = Ordering.eq ∨ carryMatch)
  | MergeStrategy.Or => rightFresh = true ∧ cmp ≠ Ordering.lt
  | MergeStrategy.AndNot => False

/-- C1.  In every main-loop iteration with both heads present the driver
pushes the left head exactly when the mode's left condition holds and the
right head exactly when the mode's right condition holds, with carry-match
meaning the stored last left key equals the right head's key and
need-read-left meaning carry-match with unequal current keys; afterwards,
when cmp is at most Equal and need-read-left fails, the left cursor is
advanced, left freshness is set and the consumed left key is recorded,
otherwise the right cursor is advanced and right freshness is set. -/
theorem merge_step_matches_mode_table (strat : MergeStrategy)
    (compare : Field → Field → Ordering) (st : LoopState) (l r : Head) :
    (((l, Side.Left) ∈ (mergeStep strat compare st l r).1) ↔
      specLeftCond strat st.leftReaded (compare l.2 r.2)
        (st.oldLeftValue = some r.2 ∧ compare l.2 r.2 ≠ Ordering.eq)) ∧
    (((r, Side.Right) ∈ (mergeStep strat compare st l r).1) ↔
      specRightCond strat st.rightReaded (compare l.2 r.2)
        (st.oldLeftValue = some r.2)) ∧
    ((compare l.2 r.2 ≠ Ordering.gt ∧
        ¬(st.oldLeftValue = some r.2 ∧ compare l.2 r.2 ≠ Ordering.eq)) →
      ((mergeStep strat compare st l r).2.1 = true ∧
       (mergeStep strat compare st l r).2.2.leftReaded = true ∧
       (mergeStep strat compare st l r).2.2.oldLeftValue = some l.2)) ∧
    (¬(compare l.2 r.2 ≠ Ordering.gt ∧
        ¬(st.oldLeftValue = some r.2 ∧ compare l.2 r.2 ≠ Ordering.eq)) →
      ((mergeStep strat compare st l r).2.1 = false ∧
       (mergeStep strat compare st l r).2.2.rightReaded = true ∧
       (mergeStep strat compare st l r).2.2.oldLeftValue =
         st.oldLeftValue)) := by
  obtain ⟨lf, rf, olv⟩ := st
  rcases olv with _ | v
  · cases hc : compare l.2 r.2 <;> cases strat <;> cases lf <;> cases rf <;>
      simp [mergeStep, hc, specLeftCond, specRightCond, ordIsLe, ordIsGe,
        ordIsEq, ordIsNe]
  · by_cases hv : v = r.2 <;>
      cases hc : compare l.2 r.2 <;> cases strat <;> cases lf <;>
        cases rf <;>
      simp [mergeStep, hc, specLeftCond, specRightCond, ordIsLe, ordIsGe,
        ordIsEq, ordIsNe, hv]

/-- Loop state at the start of the merge loop: both sides fresh and no
left history. -/
def initialLoopState : LoopState :=
  { leftReaded := true, rightReaded := true, oldLeftValue := none }

/-- C1 witness: under OR with byte comparison, heads with keys 49 and 50
compare Less, so the step advances the left cursor, sets left freshness
and records key 49 as the last left key. -/
theorem merge_step_matches_mode_table_witness :
    (mergeStep MergeStrategy.Or compareBytes initialLoopState
        ([[49]], [49]) ([[50]], [50])).2.1 = true ∧
    (mergeStep MergeStrategy.Or compareBytes initialLoopState
        ([[49]], [49]) ([[50]], [50])).2.2.leftReaded = true ∧
    (mergeStep MergeStrategy.Or compareBytes initialLoopState
        ([[49]], [49]) ([[50]], [50])).2.2.oldLeftValue = some [49] := by
  have h := merge_step_matches_mode_table MergeStrategy.Or compareBytes
    initialLoopState ([[49]], [49]) ([[50]], [50])
  exact h.2.2.1 (by decide)

end EnclaveTools
